import Mathlib

/-!
Shallow embedding of the miner dashboard backend core
(`backend/data_manager.py`, `backend/csv_parser.py`,
`backend/price_csv_loader.py`, `backend/metrics.py`, `backend/main.py`)
and proofs about the properties its specification states.

Machine data is embedded as follows: a DataFrame row becomes a record with
its `observed_at` key (`ts : Nat`, injectively abstracting the parsed,
string-normalised timestamp) and a payload distinguishing rows that share a
key; pandas frame operations (`concat`, `drop_duplicates(keep='last')`,
`sort_values(ascending=False)`, `groupby(...).first()`) become the list
functions below, following their documented semantics; numeric columns are
embedded as rationals; fallible paths return `Option`/`Except`.
-/

/-- One observation row of a miner frame.  `ts` is the `observed_at` natural
key (the parsed `timestamp`/`datetime` value); `payload` stands for the
remaining columns and distinguishes rows with equal keys. -/
structure Row where
  ts : Nat
  payload : Nat
deriving DecidableEq, Repr

/-- `pandas.DataFrame.drop_duplicates(subset=[timestamp_col], keep='last')`:
a row is kept iff no later row carries the same key; kept rows stay in
order. -/
def dedupLast : List Row → List Row
  | [] => []
  | r :: rest =>
    if ∃ s ∈ rest, s.ts = r.ts then dedupLast rest else r :: dedupLast rest

/-- Descending-by-key comparison used by
`sort_values(timestamp_col, ascending=False)`. -/
def rowGE (a b : Row) : Prop := b.ts ≤ a.ts

/-- Strict version of `rowGE`; after deduplication the sort keys are unique,
so the sorted frame is strictly descending. -/
def rowGT (a b : Row) : Prop := b.ts < a.ts

instance : DecidableRel rowGE := fun a b => inferInstanceAs (Decidable (b.ts ≤ a.ts))

instance : IsTotal Row rowGE := ⟨fun a b => Nat.le_total b.ts a.ts⟩

instance : IsTrans Row rowGE := ⟨fun _ _ _ h1 h2 => Nat.le_trans h2 h1⟩

instance : IsAntisymm Row rowGT :=
  ⟨fun _ _ h1 h2 => absurd (Nat.lt_trans h1 h2) (Nat.lt_irrefl _)⟩

/-- `sort_values(timestamp_col, ascending=False)`.  pandas' default sort is
not stable, but at every use site in `update_miner_data` the keys have just
been deduplicated, so the order among equal keys never matters. -/
def sortDesc (l : List Row) : List Row := List.insertionSort rowGE l

/-- `DataManager.update_miner_data` (`backend/data_manager.py:21-38`),
one call for one miner: `existing` is the stored frame for the miner
(`none` when the miner has no data yet), `df` the incoming delta, and
`hasTs` whether the combined frame has a `timestamp` (or `datetime`)
column — a schema property shared by store and delta, since both come from
the same source file.  On the first merge the delta is stored as-is; on a
later merge the frames are concatenated, deduplicated by the key keeping
the last occurrence, and sorted descending — but only when the timestamp
column exists. -/
def update_miner_data (existing : Option (List Row)) (hasTs : Bool)
    (df : List Row) : List Row :=
  match existing with
  | none => df
  | some ex =>
    let combined := ex ++ df
    if hasTs then sortDesc (dedupLast combined) else combined

theorem mem_dedupLast {r : Row} : ∀ {l : List Row}, r ∈ dedupLast l → r ∈ l
  | [], h => by simp [dedupLast] at h
  | s :: rest, h => by
    by_cases hs : ∃ u ∈ rest, u.ts = s.ts
    · simp only [dedupLast, if_pos hs] at h
      exact List.mem_cons_of_mem _ (mem_dedupLast h)
    · simp only [dedupLast, if_neg hs, List.mem_cons] at h
      rcases h with h | h
      · exact h ▸ List.mem_cons_self _ _
      · exact List.mem_cons_of_mem _ (mem_dedupLast h)

theorem dedupLast_keys_nodup : ∀ l : List Row, ((dedupLast l).map Row.ts).Nodup
  | [] => by simp [dedupLast]
  | r :: rest => by
    by_cases hs : ∃ u ∈ rest, u.ts = r.ts
    · simpa only [dedupLast, if_pos hs] using dedupLast_keys_nodup rest
    · simp only [dedupLast, if_neg hs, List.map_cons, List.nodup_cons]
      refine ⟨fun hmem => ?_, dedupLast_keys_nodup rest⟩
      rcases List.mem_map.mp hmem with ⟨u, hu, hts⟩
      exact hs ⟨u, mem_dedupLast hu, hts⟩

theorem dedupLast_cons (r : Row) (rest : List Row) :
    dedupLast (r :: rest)
      = if ∃ s ∈ rest, s.ts = r.ts then dedupLast rest
        else r :: dedupLast rest := rfl

theorem dedupLast_append (xs ys : List Row) :
    dedupLast (xs ++ ys)
      = (dedupLast xs).filter (fun r => decide (¬ ∃ s ∈ ys, s.ts = r.ts))
        ++ dedupLast ys := by
  induction xs with
  | nil => simp [dedupLast]
  | cons r xs ih =>
    by_cases hx : ∃ s ∈ xs, s.ts = r.ts
    · have hcomb : ∃ s ∈ xs ++ ys, s.ts = r.ts := by
        rcases hx with ⟨s, hs, hts⟩
        exact ⟨s, List.mem_append_left _ hs, hts⟩
      rw [List.cons_append, dedupLast_cons r (xs ++ ys), if_pos hcomb,
        dedupLast_cons r xs, if_pos hx]
      exact ih
    · by_cases hy : ∃ s ∈ ys, s.ts = r.ts
      · have hcomb : ∃ s ∈ xs ++ ys, s.ts = r.ts := by
          rcases hy with ⟨s, hs, hts⟩
          exact ⟨s, List.mem_append_right _ hs, hts⟩
        have hpr : (decide (¬ ∃ s ∈ ys, s.ts = r.ts)) = false := by simp [hy]
        rw [List.cons_append, dedupLast_cons r (xs ++ ys), if_pos hcomb,
          dedupLast_cons r xs, if_neg hx, List.filter_cons, hpr]
        simp only [Bool.false_eq_true, if_false]
        exact ih
      · have hcomb : ¬ ∃ s ∈ xs ++ ys, s.ts = r.ts := by
          rintro ⟨s, hs, hts⟩
          rcases List.mem_append.mp hs with h | h
          · exact hx ⟨s, h, hts⟩
          · exact hy ⟨s, h, hts⟩
        have hpr : (decide (¬ ∃ s ∈ ys, s.ts = r.ts)) = true := by simp [hy]
        rw [List.cons_append, dedupLast_cons r (xs ++ ys), if_neg hcomb,
          dedupLast_cons r xs, if_neg hx, List.filter_cons, hpr]
        simp only [if_true, List.cons_append, ih]

theorem dedupLast_eq_self_of_nodup :
    ∀ {l : List Row}, (l.map Row.ts).Nodup → dedupLast l = l
  | [], _ => rfl
  | r :: rest, h => by
    simp only [List.map_cons, List.nodup_cons] at h
    have hs : ¬ ∃ u ∈ rest, u.ts = r.ts := by
      rintro ⟨u, hu, hts⟩
      exact h.1 (List.mem_map.mpr ⟨u, hu, hts⟩)
    simp only [dedupLast, if_neg hs, dedupLast_eq_self_of_nodup h.2]

theorem filter_dedupLast_self (d : List Row) :
    (dedupLast d).filter (fun r => decide (¬ ∃ s ∈ d, s.ts = r.ts)) = [] := by
  rw [List.filter_eq_nil_iff]
  intro r hr
  simp only [decide_not, Bool.not_eq_true', decide_eq_false_iff_not, not_not]
  exact ⟨r, mem_dedupLast hr, rfl⟩

theorem sorted_rowGT_of_sorted_nodup {l : List Row}
    (hs : List.Sorted rowGE l) (hn : (l.map Row.ts).Nodup) :
    List.Sorted rowGT l := by
  have hne : l.Pairwise (fun a b : Row => a.ts ≠ b.ts) :=
    (List.pairwise_map.mp hn)
  exact (hs.and hne).imp (fun h => Nat.lt_of_le_of_ne h.1 (Ne.symm h.2))

theorem sortDesc_perm (l : List Row) : List.Perm (sortDesc l) l :=
  List.perm_insertionSort rowGE l

theorem sortDesc_sorted (l : List Row) : List.Sorted rowGE (sortDesc l) :=
  List.sorted_insertionSort rowGE l

theorem merge_again_perm (S d T : List Row)
    (hTperm : List.Perm T (dedupLast (S ++ d)))
    (hTnodup : (T.map Row.ts).Nodup) :
    List.Perm (dedupLast (T ++ d)) (dedupLast (S ++ d)) := by
  have h1 : dedupLast (T ++ d)
      = T.filter (fun r => decide (¬ ∃ s ∈ d, s.ts = r.ts)) ++ dedupLast d := by
    rw [dedupLast_append, dedupLast_eq_self_of_nodup hTnodup]
  have h3 : (dedupLast (S ++ d)).filter (fun r => decide (¬ ∃ s ∈ d, s.ts = r.ts))
      = (dedupLast S).filter (fun r => decide (¬ ∃ s ∈ d, s.ts = r.ts)) := by
    rw [dedupLast_append S d, List.filter_append, List.filter_filter,
      filter_dedupLast_self, List.append_nil]
    exact List.filter_congr (fun a _ => Bool.and_self _)
  have h5 := hTperm.filter (fun r => decide (¬ ∃ s ∈ d, s.ts = r.ts))
  rw [h3] at h5
  rw [h1, dedupLast_append S d]
  exact h5.append_right _

/-- Claim C1 (counterexample): merging the same delta twice is not the same
as merging it once in the case the claim explicitly includes — rows with no
timestamp/datetime column.  The first merge stores the delta as-is and the
second merge concatenates without deduplicating, doubling the rows. -/
theorem update_miner_data_not_idempotent :
    update_miner_data (some (update_miner_data none false [⟨0, 0⟩])) false [⟨0, 0⟩]
      ≠ update_miner_data none false [⟨0, 0⟩] := by decide

/-- Claim C1 (amended): merging the same delta twice yields the same Series
as merging it once provided the frames carry the timestamp column and the
source already has stored data; in the first-ever-merge case it additionally
requires the delta to be already deduplicated by key and sorted descending,
because the first merge stores the delta untouched. -/
theorem update_miner_data_idempotent (S d : List Row) :
    (update_miner_data (some (update_miner_data (some S) true d)) true d
        = update_miner_data (some S) true d)
    ∧ (dedupLast d = d → List.Sorted rowGE d →
        update_miner_data (some (update_miner_data none true d)) true d
          = update_miner_data none true d) := by
  constructor
  · show sortDesc (dedupLast (sortDesc (dedupLast (S ++ d)) ++ d))
      = sortDesc (dedupLast (S ++ d))
    have hTperm : List.Perm (sortDesc (dedupLast (S ++ d))) (dedupLast (S ++ d)) :=
      sortDesc_perm _
    have hTnodup : ((sortDesc (dedupLast (S ++ d))).map Row.ts).Nodup :=
      ((hTperm.map Row.ts).nodup_iff).mpr (dedupLast_keys_nodup _)
    have h4 : List.Perm (dedupLast (sortDesc (dedupLast (S ++ d)) ++ d))
        (dedupLast (S ++ d)) := merge_again_perm S d _ hTperm hTnodup
    have hperm : List.Perm
        (sortDesc (dedupLast (sortDesc (dedupLast (S ++ d)) ++ d)))
        (sortDesc (dedupLast (S ++ d))) :=
      (sortDesc_perm _).trans (h4.trans hTperm.symm)
    have hn1 : ((sortDesc (dedupLast (sortDesc (dedupLast (S ++ d)) ++ d))).map Row.ts).Nodup :=
      ((sortDesc_perm _).map Row.ts).nodup_iff.mpr (dedupLast_keys_nodup _)
    have hs1 := sorted_rowGT_of_sorted_nodup (sortDesc_sorted _) hn1
    have hs2 := sorted_rowGT_of_sorted_nodup (sortDesc_sorted _) hTnodup
    exact List.eq_of_perm_of_sorted hperm hs1 hs2
  · intro hd hsorted
    show sortDesc (dedupLast (d ++ d)) = d
    have h1 : dedupLast (d ++ d) = d := by
      rw [dedupLast_append, filter_dedupLast_self, List.nil_append, hd]
    rw [h1]
    exact hsorted.insertionSort_eq

/-- Claim C1 (witness): the amended idempotence at a concrete store and
delta, both for a populated store and for a first merge with a canonical
delta. -/
theorem update_miner_data_idempotent_witness :
    (update_miner_data (some (update_miner_data (some [⟨5, 0⟩]) true [⟨3, 1⟩])) true [⟨3, 1⟩]
        = update_miner_data (some [⟨5, 0⟩]) true [⟨3, 1⟩])
    ∧ (update_miner_data (some (update_miner_data none true [⟨3, 1⟩])) true [⟨3, 1⟩]
        = update_miner_data none true [⟨3, 1⟩]) :=
  ⟨(update_miner_data_idempotent [⟨5, 0⟩] [⟨3, 1⟩]).1,
   (update_miner_data_idempotent [⟨5, 0⟩] [⟨3, 1⟩]).2 (by decide) (by decide)⟩

/-- Claim C2 (counterexample): the uniqueness invariant fails after the very
first merge when the incoming delta itself contains duplicate timestamps —
the first merge stores the delta as-is, duplicates included. -/
theorem update_miner_data_invariant_counterexample :
    update_miner_data none true [⟨1, 0⟩, ⟨1, 1⟩] = [⟨1, 0⟩, ⟨1, 1⟩]
    ∧ ¬ ((update_miner_data none true [⟨1, 0⟩, ⟨1, 1⟩]).map Row.ts).Nodup := by
  decide

/-- Claim C2 (amended): after every merge into an already-populated source
with the timestamp column present, the stored Series has pairwise-distinct
`observed_at` keys and is strictly sorted descending by that key; after the
very first merge the Series is the delta as-is, so the invariant then holds
only if the delta already satisfies it. -/
theorem update_miner_data_series_invariant (S d : List Row) :
    ((update_miner_data (some S) true d).map Row.ts).Nodup
    ∧ List.Sorted rowGT (update_miner_data (some S) true d) := by
  have hnodup : ((update_miner_data (some S) true d).map Row.ts).Nodup :=
    ((sortDesc_perm (dedupLast (S ++ d))).map Row.ts).nodup_iff.mpr
      (dedupLast_keys_nodup _)
  exact ⟨hnodup, sorted_rowGT_of_sorted_nodup (sortDesc_sorted _) hnodup⟩

/-- `CSVParser.get_new_rows` (`backend/csv_parser.py:93-124`) in the case
the claim covers: both snapshots carry the timestamp (or datetime) column.
`Row.ts` abstracts the string-normalised key (`astype(str)` is injective on
the parsed values).  The code takes the set of keys of the new snapshot
minus the keys of the old one (`added_timestamps`), returns an empty frame
when that set is empty, and otherwise keeps the rows of the new snapshot
whose key is in the set, in their original order. -/
def get_new_rows (old_df new_df : List Row) : List Row :=
  if old_df.isEmpty then new_df
  else if new_df.isEmpty then []
  else if ((new_df.map Row.ts).filter (fun t => decide (t ∉ old_df.map Row.ts))).isEmpty then
    []
  else
    new_df.filter (fun r =>
      decide (r.ts ∈ (new_df.map Row.ts).filter (fun t => decide (t ∉ old_df.map Row.ts))))

/-- Claim C3: the delta is an exact set-difference on the natural key — for
every prior snapshot and new snapshot, `get_new_rows` returns exactly the
rows of the new snapshot whose key does not occur in the prior snapshot,
preserving their order, and the whole new snapshot when the prior one is
empty. -/
theorem get_new_rows_set_difference (old_df new_df : List Row) :
    get_new_rows old_df new_df
      = new_df.filter (fun r => decide (r.ts ∉ old_df.map Row.ts))
    ∧ get_new_rows [] new_df = new_df := by
  have main : ∀ o n : List Row,
      get_new_rows o n = n.filter (fun r => decide (r.ts ∉ o.map Row.ts)) := by
    intro o n
    by_cases ho : o.isEmpty
    · have : o = [] := List.isEmpty_iff.mp ho
      subst this
      simp [get_new_rows]
    · by_cases hn : n.isEmpty
      · have : n = [] := List.isEmpty_iff.mp hn
        subst this
        simp [get_new_rows, ho]
      · have key : ∀ r ∈ n,
            (decide (r.ts ∈ (n.map Row.ts).filter (fun t => decide (t ∉ o.map Row.ts))))
              = (decide (r.ts ∉ o.map Row.ts)) := by
          intro r hr
          by_cases hmem : r.ts ∈ o.map Row.ts
          · have h1 : r.ts ∉ (n.map Row.ts).filter (fun t => decide (t ∉ o.map Row.ts)) := by
              intro hin
              exact (of_decide_eq_true (List.mem_filter.mp hin).2) hmem
            exact (decide_eq_false h1).trans
              (decide_eq_false (not_not_intro hmem)).symm
          · have h1 : r.ts ∈ (n.map Row.ts).filter (fun t => decide (t ∉ o.map Row.ts)) :=
              List.mem_filter.mpr ⟨List.mem_map.mpr ⟨r, hr, rfl⟩, decide_eq_true hmem⟩
            exact (decide_eq_true h1).trans (decide_eq_true hmem).symm
        unfold get_new_rows
        rw [if_neg ho, if_neg hn]
        by_cases hadd : ((n.map Row.ts).filter (fun t => decide (t ∉ o.map Row.ts))).isEmpty
        · rw [if_pos hadd]
          symm
          rw [List.filter_eq_nil_iff]
          intro r hr
          have hk := List.filter_eq_nil_iff.mp (List.isEmpty_iff.mp hadd) r.ts
            (List.mem_map.mpr ⟨r, hr, rfl⟩)
          simpa using hk
        · rw [if_neg hadd]
          exact List.filter_congr key
  refine ⟨main old_df new_df, ?_⟩
  simp [get_new_rows]

/-- `eval_time.replace(minute=(eval_time.minute // 5) * 5, second=0,
microsecond=0)` (`backend/price_csv_loader.py:167-169` and `232-234`): on a
timestamp counted in whole seconds this rounds down to the start of the
enclosing 5-minute bucket. -/
def round_to_bucket (t : Nat) : Nat := 300 * (t / 300)

/-- `abs((price_time - eval_rounded).total_seconds())` as a natural number
of seconds. -/
def tdist (a b : Nat) : Nat := max a b - min a b

/-- The closest-bucket scan of `get_price_at_time`
(`backend/price_csv_loader.py:181-187`) and `fetch_prices_batch`
(lines 241-247): iterate over the indexed bucket keys, keeping the first
key that strictly improves the running minimum distance while being within
300 seconds.  The accumulator `none` models `closest_time = None,
min_diff = float('inf')`, under which `diff < min_diff` always holds. -/
def scan_closest (target : Nat) : List Nat → Option (Nat × Nat) → Option (Nat × Nat)
  | [], acc => acc
  | k :: rest, acc =>
    match acc with
    | none =>
      if tdist k target ≤ 300 then
        scan_closest target rest (some (k, tdist k target))
      else scan_closest target rest none
    | some (c, m) =>
      if tdist k target < m ∧ tdist k target ≤ 300 then
        scan_closest target rest (some (k, tdist k target))
      else scan_closest target rest (some (c, m))

/-- The per-instant resolution step shared verbatim by `get_price_at_time`
(`backend/price_csv_loader.py:166-195`) and `fetch_prices_batch`
(lines 231-252): round the instant down to its 5-minute bucket, try the
exact bucket in the index, otherwise scan for the closest indexed bucket
within 300 seconds.  The dict `_price_lookup_cache[asset]` is embedded as
an association list with unique keys (dict keys are unique by
construction). -/
def resolve_in_lookup (lookup : List (Nat × Int)) (t : Nat) : Option Int :=
  match List.lookup (round_to_bucket t) lookup with
  | some price => some price
  | none =>
    match scan_closest (round_to_bucket t) (lookup.map Prod.fst) none with
    | some cm => List.lookup cm.1 lookup
    | none => none

/-- `PriceCSVLoader.get_price_at_time` (`backend/price_csv_loader.py:140-195`):
`load` is the outcome of `_load_price_csv` together with the built bucket
index — `none` models `df is None or df.empty` (file missing, unreadable,
or empty), on which the call returns `None`. -/
def get_price_at_time (load : Option (List (Nat × Int))) (t : Nat) : Option Int :=
  match load with
  | none => none
  | some lookup => resolve_in_lookup lookup t

/-- `PriceCSVLoader.fetch_prices_batch` (`backend/price_csv_loader.py:197-257`):
empty input yields the empty mapping; a failed or empty load yields the
empty mapping (`return {}` at line 224); otherwise every instant is
resolved by the same per-instant rule and keyed by the original instant. -/
def fetch_prices_batch (load : Option (List (Nat × Int)))
    (eval_times : List Nat) : List (Nat × Option Int) :=
  if eval_times.isEmpty then []
  else
    match load with
    | none => []
    | some lookup => eval_times.map (fun t => (t, resolve_in_lookup lookup t))

theorem scan_closest_eq_none (target : Nat) (ks : List Nat) :
    ∀ acc, scan_closest target ks acc = none
      ↔ acc = none ∧ ∀ k ∈ ks, 300 < tdist k target := by
  induction ks with
  | nil => intro acc; simp [scan_closest]
  | cons k rest ih =>
    intro acc
    rcases acc with _ | ⟨c, m⟩
    · by_cases h : tdist k target ≤ 300
      · have hstep : scan_closest target (k :: rest) none
            = scan_closest target rest (some (k, tdist k target)) := by
          simp [scan_closest, h]
        rw [hstep, ih]
        constructor
        · rintro ⟨hc, -⟩; cases hc
        · rintro ⟨-, hall⟩
          have := hall k (List.mem_cons_self k rest)
          omega
      · have hstep : scan_closest target (k :: rest) none
            = scan_closest target rest none := by
          simp [scan_closest, h]
        rw [hstep, ih]
        constructor
        · rintro ⟨-, hall⟩
          refine ⟨rfl, fun x hx => ?_⟩
          rcases List.mem_cons.mp hx with rfl | hx
          · omega
          · exact hall x hx
        · rintro ⟨-, hall⟩
          exact ⟨rfl, fun x hx => hall x (List.mem_cons_of_mem _ hx)⟩
    · by_cases h : tdist k target < m ∧ tdist k target ≤ 300
      · have hstep : scan_closest target (k :: rest) (some (c, m))
            = scan_closest target rest (some (k, tdist k target)) := by
          simp [scan_closest, h]
        rw [hstep, ih]
        simp
      · have hstep : scan_closest target (k :: rest) (some (c, m))
            = scan_closest target rest (some (c, m)) := by
          simp [scan_closest, h]
        rw [hstep, ih]
        simp

theorem scan_closest_spec (target : Nat) (ks : List Nat) :
    ∀ (acc : Option (Nat × Nat)) (c m : Nat),
      (∀ c0 m0, acc = some (c0, m0) → m0 = tdist c0 target ∧ m0 ≤ 300) →
      scan_closest target ks acc = some (c, m) →
      m = tdist c target ∧ m ≤ 300
        ∧ (∀ k ∈ ks, m ≤ tdist k target)
        ∧ (∀ c0 m0, acc = some (c0, m0) → m ≤ m0)
        ∧ (c ∈ ks ∨ acc = some (c, m)) := by
  induction ks with
  | nil =>
    intro acc c m hacc hscan
    simp only [scan_closest] at hscan
    obtain ⟨h1, h2⟩ := hacc c m hscan
    refine ⟨h1, h2, by simp, ?_, Or.inr hscan⟩
    intro c0 m0 h0
    rw [hscan] at h0
    simp only [Option.some.injEq, Prod.mk.injEq] at h0
    omega
  | cons k rest ih =>
    intro acc c m hacc hscan
    rcases acc with _ | ⟨c0, m0⟩
    · by_cases h : tdist k target ≤ 300
      · have hstep : scan_closest target (k :: rest) none
            = scan_closest target rest (some (k, tdist k target)) := by
          simp [scan_closest, h]
        rw [hstep] at hscan
        have hacc2 : ∀ a b, (some (k, tdist k target) : Option (Nat × Nat)) = some (a, b)
            → b = tdist a target ∧ b ≤ 300 := by
          intro a b hab
          simp only [Option.some.injEq, Prod.mk.injEq] at hab
          obtain ⟨h1, h2⟩ := hab
          subst h1; subst h2
          exact ⟨rfl, h⟩
        obtain ⟨hm, h300, hrest, hbound, hmem⟩ := ih _ c m hacc2 hscan
        refine ⟨hm, h300, ?_, fun c0 m0 h0 => Option.noConfusion h0, ?_⟩
        · intro x hx
          rcases List.mem_cons.mp hx with rfl | hx
          · exact hbound x (tdist x target) rfl
          · exact hrest x hx
        · rcases hmem with hmem | hmem
          · exact Or.inl (List.mem_cons_of_mem _ hmem)
          · simp only [Option.some.injEq, Prod.mk.injEq] at hmem
            exact Or.inl (hmem.1 ▸ List.mem_cons_self k rest)
      · have hstep : scan_closest target (k :: rest) none
            = scan_closest target rest none := by
          simp [scan_closest, h]
        rw [hstep] at hscan
        obtain ⟨hm, h300, hrest, hbound, hmem⟩ :=
          ih none c m (fun a b hab => Option.noConfusion hab) hscan
        refine ⟨hm, h300, ?_, fun c0 m0 h0 => Option.noConfusion h0, ?_⟩
        · intro x hx
          rcases List.mem_cons.mp hx with rfl | hx
          · omega
          · exact hrest x hx
        · rcases hmem with hmem | hmem
          · exact Or.inl (List.mem_cons_of_mem _ hmem)
          · cases hmem
    · obtain ⟨hm0, h3000⟩ := hacc c0 m0 rfl
      by_cases h : tdist k target < m0 ∧ tdist k target ≤ 300
      · have hstep : scan_closest target (k :: rest) (some (c0, m0))
            = scan_closest target rest (some (k, tdist k target)) := by
          simp [scan_closest, h]
        rw [hstep] at hscan
        have hacc2 : ∀ a b, (some (k, tdist k target) : Option (Nat × Nat)) = some (a, b)
            → b = tdist a target ∧ b ≤ 300 := by
          intro a b hab
          simp only [Option.some.injEq, Prod.mk.injEq] at hab
          obtain ⟨h1, h2⟩ := hab
          subst h1; subst h2
          exact ⟨rfl, h.2⟩
        obtain ⟨hm, h300, hrest, hbound, hmem⟩ := ih _ c m hacc2 hscan
        refine ⟨hm, h300, ?_, ?_, ?_⟩
        · intro x hx
          rcases List.mem_cons.mp hx with rfl | hx
          · exact hbound x (tdist x target) rfl
          · exact hrest x hx
        · intro a b hab
          cases hab
          have := hbound k (tdist k target) rfl
          omega
        · rcases hmem with hmem | hmem
          · exact Or.inl (List.mem_cons_of_mem _ hmem)
          · simp only [Option.some.injEq, Prod.mk.injEq] at hmem
            exact Or.inl (hmem.1 ▸ List.mem_cons_self k rest)
      · have hstep : scan_closest target (k :: rest) (some (c0, m0))
            = scan_closest target rest (some (c0, m0)) := by
          simp [scan_closest, h]
        rw [hstep] at hscan
        obtain ⟨hm, h300, hrest, hbound, hmem⟩ :=
          ih _ c m (by intro a b hab; cases hab; exact ⟨hm0, h3000⟩) hscan
        refine ⟨hm, h300, ?_, ?_, ?_⟩
        · intro x hx
          rcases List.mem_cons.mp hx with rfl | hx
          · have hb := hbound c0 m0 rfl
            omega
          · exact hrest x hx
        · intro a b hab
          cases hab
          exact hbound _ _ rfl
        · rcases hmem with hmem | hmem
          · exact Or.inl (List.mem_cons_of_mem _ hmem)
          · exact Or.inr hmem

theorem lookup_some_of_mem_keys (l : List (Nat × Int)) (k : Nat) :
    k ∈ l.map Prod.fst → ∃ v, List.lookup k l = some v := by
  induction l with
  | nil => intro h; simp at h
  | cons p rest ih =>
    obtain ⟨a, b⟩ := p
    intro h
    by_cases hk : k = a
    · exact ⟨b, by simp [List.lookup, hk]⟩
    · have hmem : k ∈ rest.map Prod.fst := by
        simp only [List.map_cons, List.mem_cons] at h
        exact h.resolve_left hk
      obtain ⟨v, hv⟩ := ih hmem
      have hba : (k == a) = false := beq_eq_false_iff_ne.mpr hk
      exact ⟨v, by simp [List.lookup, hba, hv]⟩

/-- Claim C4: price lookup tolerance boundary — when the query's 5-minute
bucket is not directly indexed, the lookup returns the value of an indexed
bucket minimizing the absolute time distance to the requested bucket
whenever some bucket is within 300 seconds, and returns `none` whenever
every indexed bucket is strictly more than 300 seconds away. -/
theorem get_price_at_time_tolerance (lookup : List (Nat × Int)) (t : Nat)
    (hmiss : List.lookup (round_to_bucket t) lookup = none) :
    ((∀ k ∈ lookup.map Prod.fst, 300 < tdist k (round_to_bucket t)) →
        get_price_at_time (some lookup) t = none)
    ∧ (∀ k0 ∈ lookup.map Prod.fst, tdist k0 (round_to_bucket t) ≤ 300 →
        ∃ k v, k ∈ lookup.map Prod.fst
          ∧ tdist k (round_to_bucket t) ≤ 300
          ∧ (∀ j ∈ lookup.map Prod.fst,
              tdist k (round_to_bucket t) ≤ tdist j (round_to_bucket t))
          ∧ List.lookup k lookup = some v
          ∧ get_price_at_time (some lookup) t = some v) := by
  constructor
  · intro hall
    show resolve_in_lookup lookup t = none
    unfold resolve_in_lookup
    rw [hmiss]
    have hnone : scan_closest (round_to_bucket t) (lookup.map Prod.fst) none = none :=
      (scan_closest_eq_none _ _ none).mpr ⟨rfl, hall⟩
    rw [hnone]
  · intro k0 hk0 hd0
    rcases hscan : scan_closest (round_to_bucket t) (lookup.map Prod.fst) none with _ | ⟨c, m⟩
    · rcases (scan_closest_eq_none _ _ none).mp hscan with ⟨-, hall⟩
      have := hall k0 hk0
      omega
    · obtain ⟨hm, h300, hmin, -, hmem⟩ :=
        scan_closest_spec _ _ none c m (fun a b hab => Option.noConfusion hab) hscan
      have hcmem : c ∈ lookup.map Prod.fst := by
        rcases hmem with h | h
        · exact h
        · exact Option.noConfusion h
      obtain ⟨v, hv⟩ := lookup_some_of_mem_keys lookup c hcmem
      refine ⟨c, v, hcmem, by omega, ?_, hv, ?_⟩
      · intro j hj
        have := hmin j hj
        omega
      · show resolve_in_lookup lookup t = some v
        unfold resolve_in_lookup
        rw [hmiss, hscan]
        exact hv

/-- Claim C4 (witness): a bucket exactly 300 seconds from the requested
bucket resolves to its value; a bucket exactly 301 seconds away yields
`none`. -/
theorem get_price_at_time_tolerance_witness :
    (∃ k v, k ∈ ([((0 : Nat), (42 : Int))].map Prod.fst)
      ∧ tdist k (round_to_bucket 300) ≤ 300
      ∧ (∀ j ∈ [((0 : Nat), (42 : Int))].map Prod.fst,
          tdist k (round_to_bucket 300) ≤ tdist j (round_to_bucket 300))
      ∧ List.lookup k [((0 : Nat), (42 : Int))] = some v
      ∧ get_price_at_time (some [((0 : Nat), (42 : Int))]) 300 = some v)
    ∧ get_price_at_time (some [((601 : Nat), (7 : Int))]) 300 = none :=
  ⟨(get_price_at_time_tolerance [(0, 42)] 300 (by decide)).2 0 (by decide) (by decide),
   (get_price_at_time_tolerance [(601, 7)] 300 (by decide)).1 (by decide)⟩

/-- Claim C5 (counterexample): when the backing price file is missing or
unreadable (`_load_price_csv` yields no frame), `fetch_prices_batch`
returns the empty mapping, so the input instant `0` has no entry at all —
it is silently dropped rather than mapped to `none`. -/
theorem fetch_prices_batch_drops_on_load_failure :
    fetch_prices_batch none [0] = []
    ∧ (fetch_prices_batch none [0]).length ≠ ([0] : List Nat).length := by
  constructor
  · rfl
  · decide

/-- Claim C5 (amended): when the price CSV loads into a nonempty frame, the
batch result has exactly one entry per input instant, each resolved by the
same per-instant 5-minute-bucket rule as the single lookup; when the load
fails or the frame is empty, the result is the empty mapping and every
instant is dropped. -/
theorem fetch_prices_batch_amended (lookup : List (Nat × Int))
    (eval_times : List Nat) :
    fetch_prices_batch (some lookup) eval_times
        = eval_times.map (fun t => (t, get_price_at_time (some lookup) t))
    ∧ (∀ t ∈ eval_times,
        (t, get_price_at_time (some lookup) t)
          ∈ fetch_prices_batch (some lookup) eval_times)
    ∧ fetch_prices_batch none eval_times = [] := by
  have h1 : fetch_prices_batch (some lookup) eval_times
      = eval_times.map (fun t => (t, get_price_at_time (some lookup) t)) := by
    unfold fetch_prices_batch
    by_cases h : eval_times.isEmpty
    · rw [if_pos h]
      have : eval_times = [] := List.isEmpty_iff.mp h
      subst this
      rfl
    · rw [if_neg h]
      rfl
  refine ⟨h1, ?_, ?_⟩
  · intro t ht
    rw [h1]
    exact List.mem_map.mpr ⟨t, ht, rfl⟩
  · unfold fetch_prices_batch
    by_cases h : eval_times.isEmpty
    · rw [if_pos h]
    · rw [if_neg h]

/-- Claim C5 (witness): the amended batch property at a concrete index and
instant list. -/
theorem fetch_prices_batch_amended_witness :
    ((0 : Nat), get_price_at_time (some [((0 : Nat), (42 : Int))]) 0)
      ∈ fetch_prices_batch (some [((0 : Nat), (42 : Int))]) [0] :=
  (fetch_prices_batch_amended [(0, 42)] [0]).2.1 0 (by decide)

/-- Result dictionary of `MetricsCalculator.calculate_prediction_metrics`
(`backend/metrics.py:163-236`).  `none` stands for the empty dictionary
returned on empty input.  The code stores `rmse = sqrt(mse)`; the square
root is injective on the nonnegative radicand, so the record keeps `mse`
and every equality of results is captured faithfully.  `interval` holds
`(coverage, avg_interval_width, avg_interval_width_pct)` when the interval
keys are present and is `none` when they are omitted. -/
structure Metrics where
  n_predictions : Nat
  mape : ℚ
  mae : ℚ
  mse : ℚ
  bias : ℚ
  bias_pct : ℚ
  interval : Option (ℚ × ℚ × ℚ)
deriving DecidableEq, Repr

/-- `numpy` array mean: sum divided by length. -/
def mean (l : List ℚ) : ℚ := l.sum / (l.length : ℚ)

/-- The computation of `calculate_prediction_metrics` below the truncation
step (`backend/metrics.py:194-236`), applied to the already-truncated
`preds`/`acts` of equal length: `errors = acts - preds` elementwise; MAPE,
MAE, MSE (the RMSE radicand) and bias are means; the bias percentage is
guarded against a zero mean; interval metrics are attached only when both
bounds are truthy (non-`None`, nonempty — Python truthiness) and their
lengths equal the length of the truncated actuals. -/
def metrics_core (preds acts : List ℚ)
    (intervals_lower intervals_upper : Option (List ℚ)) : Metrics :=
  let errors := List.zipWith (fun a p => a - p) acts preds
  let mape := mean (List.zipWith (fun e a => |e| / a * 100) errors acts)
  let mae := mean (errors.map (fun e => |e|))
  let mse := mean (errors.map (fun e => e ^ 2))
  let bias := mean errors
  let bias_pct := if mean acts ≠ 0 then bias / mean acts * 100 else 0
  let interval :=
    match intervals_lower, intervals_upper with
    | some lo, some hi =>
      if lo.isEmpty ∨ hi.isEmpty then none
      else if lo.length = acts.length ∧ hi.length = acts.length then
        some (((((acts.zip (lo.zip hi)).filter
              (fun x => decide (x.2.1 ≤ x.1 ∧ x.1 ≤ x.2.2))).length : ℚ)
            / (acts.length : ℚ)) * 100,
          mean (List.zipWith (fun u l => u - l) hi lo),
          if mean acts ≠ 0 then
            mean (List.zipWith (fun u l => u - l) hi lo) / mean acts * 100
          else 0)
      else none
    | _, _ => none
  ⟨preds.length, mape, mae, mse, bias, bias_pct, interval⟩

/-- `MetricsCalculator.calculate_prediction_metrics`
(`backend/metrics.py:163-236`): empty predictions or actuals yield the
empty dictionary; mismatched lengths are truncated to the shorter length
(with a warning); then the metrics are computed on the truncated lists. -/
def calculate_prediction_metrics (predictions actuals : List ℚ)
    (intervals_lower intervals_upper : Option (List ℚ)) : Option Metrics :=
  if predictions.isEmpty ∨ actuals.isEmpty then none
  else
    some (metrics_core
      (predictions.take (min predictions.length actuals.length))
      (actuals.take (min predictions.length actuals.length))
      intervals_lower intervals_upper)

theorem metrics_core_interval_none (preds acts : List ℚ)
    (lo hi : Option (List ℚ))
    (hbad : ∀ l u, lo = some l → hi = some u →
      l = [] ∨ u = [] ∨ ¬(l.length = acts.length ∧ u.length = acts.length)) :
    (metrics_core preds acts lo hi).interval = none := by
  rcases lo with _ | l
  · rfl
  · rcases hi with _ | u
    · rfl
    · rcases hbad l u rfl rfl with h | h | h
      · subst h
        simp [metrics_core]
      · subst h
        simp [metrics_core]
      · by_cases hle : l.isEmpty ∨ u.isEmpty
        · rcases hle with hle | hle
          · have he : l = [] := List.isEmpty_iff.mp hle
            subst he
            simp [metrics_core]
          · have he : u = [] := List.isEmpty_iff.mp hle
            subst he
            simp [metrics_core]
        · simp [metrics_core, hle, h]

/-- Claim C6 (counterexample): on predictions `[100,100]` and actuals
`[110,90]` the computed MAPE is `(10/110 + 10/90)/2 * 100 = 1000/99`
(≈ 10.101%), not the 10% the worked example states. -/
theorem metrics_worked_example_counterexample :
    (calculate_prediction_metrics [100, 100] [110, 90] none none).map Metrics.mape
        = some (1000 / 99)
    ∧ ((1000 / 99 : ℚ)) ≠ 10 := by
  constructor
  · norm_num [calculate_prediction_metrics, metrics_core, mean, List.zipWith,
      List.take, abs]
  · norm_num

/-- Claim C6 (amended): for predictions `[100,100]` and actuals `[110,90]`
the metrics are MAE = 10, bias = 0 (hence bias% = 0) and
MAPE = 1000/99 % ≈ 10.1% (not exactly 10%); with bounds `[90,80]` and
`[110,100]` the coverage is 100% (and the mean interval width is 20, i.e.
20% of the mean actual).  The MSE radicand is 100, i.e. RMSE = 10. -/
theorem metrics_worked_example_amended :
    calculate_prediction_metrics [100, 100] [110, 90] (some [90, 80]) (some [110, 100])
      = some ⟨2, 1000 / 99, 10, 100, 0, 0, some (100, 20, 20)⟩ := by
  norm_num [calculate_prediction_metrics, metrics_core, mean, List.zipWith,
    List.take, Metrics.mk.injEq, abs]

/-- Claim C7: mismatched `predictions`/`actuals` behave exactly as if both
were truncated to the shorter length; empty input yields the empty result;
and the interval metrics are entirely omitted whenever the bounds are
absent, empty, or their lengths do not match the truncated actuals. -/
theorem metrics_input_handling (p a : List ℚ) (lo hi : Option (List ℚ)) :
    calculate_prediction_metrics p a lo hi
        = calculate_prediction_metrics
            (p.take (min p.length a.length)) (a.take (min p.length a.length)) lo hi
    ∧ (p = [] ∨ a = [] → calculate_prediction_metrics p a lo hi = none)
    ∧ (∀ M, calculate_prediction_metrics p a lo hi = some M →
        (∀ l u, lo = some l → hi = some u →
          l = [] ∨ u = [] ∨
            ¬(l.length = (a.take (min p.length a.length)).length
              ∧ u.length = (a.take (min p.length a.length)).length)) →
        M.interval = none) := by
  refine ⟨?_, ?_, ?_⟩
  · by_cases hemp : p.isEmpty ∨ a.isEmpty
    · rcases hemp with h | h
      · have he : p = [] := List.isEmpty_iff.mp h
        subst he
        simp [calculate_prediction_metrics]
      · have he : a = [] := List.isEmpty_iff.mp h
        subst he
        simp [calculate_prediction_metrics]
    · have hpn : p ≠ [] := fun h => hemp (Or.inl (by simp [h]))
      have han : a ≠ [] := fun h => hemp (Or.inr (by simp [h]))
      have h1 : (p.take (min p.length a.length)).length = min p.length a.length := by
        rw [List.length_take]
        exact Nat.min_eq_left (Nat.min_le_left _ _)
      have h2 : (a.take (min p.length a.length)).length = min p.length a.length := by
        rw [List.length_take]
        exact Nat.min_eq_left (Nat.min_le_right _ _)
      have hpos : 0 < min p.length a.length := by
        rcases Nat.eq_zero_or_pos (min p.length a.length) with h | h
        · rcases Nat.min_eq_zero_iff.mp h with h | h
          · exact absurd (List.length_eq_zero.mp h) hpn
          · exact absurd (List.length_eq_zero.mp h) han
        · exact h
      have hemp2 : ¬ ((p.take (min p.length a.length)).isEmpty
          ∨ (a.take (min p.length a.length)).isEmpty) := by
        rintro (h | h)
        · have h0 := h1
          rw [List.isEmpty_iff.mp h] at h0
          simp at h0
          omega
        · have h0 := h2
          rw [List.isEmpty_iff.mp h] at h0
          simp at h0
          omega
      unfold calculate_prediction_metrics
      rw [if_neg hemp, if_neg hemp2]
      have hm2 : min (p.take (min p.length a.length)).length
          (a.take (min p.length a.length)).length = min p.length a.length := by
        rw [h1, h2, Nat.min_self]
      rw [hm2, List.take_take, List.take_take, Nat.min_self]
  · intro h
    have hemp : p.isEmpty ∨ a.isEmpty := by
      rcases h with h | h <;> subst h <;> simp
    unfold calculate_prediction_metrics
    rw [if_pos hemp]
  · intro M hM hbad
    by_cases hemp : p.isEmpty ∨ a.isEmpty
    · unfold calculate_prediction_metrics at hM
      rw [if_pos hemp] at hM
      exact Option.noConfusion hM
    · unfold calculate_prediction_metrics at hM
      rw [if_neg hemp] at hM
      injection hM with hMeq
      rw [← hMeq]
      exact metrics_core_interval_none _ _ lo hi hbad

/-- Claim C7 (witness): truncation, empty-input, and interval-omission at
concrete inputs — `evaluate([1,2,3],[1,2])` equals `evaluate([1,2],[1,2])`,
the empty predictions list yields the empty result, and a mismatched bound
length leaves the interval metrics out. -/
theorem metrics_input_handling_witness :
    calculate_prediction_metrics [1, 2, 3] [1, 2] none none
        = calculate_prediction_metrics [1, 2] [1, 2] none none
    ∧ calculate_prediction_metrics ([] : List ℚ) [5] none none = none
    ∧ (metrics_core [1, 2] [1, 2] (some [1]) (some [1])).interval = none :=
  ⟨(metrics_input_handling [1, 2, 3] [1, 2] none none).1,
   (metrics_input_handling ([] : List ℚ) [5] none none).2.1 (Or.inl rfl),
   (metrics_input_handling [1, 2] [1, 2] (some [1]) (some [1])).2.2
     (metrics_core [1, 2] [1, 2] (some [1]) (some [1])) rfl
     (by
       intro l u hl hu
       injection hl with hl
       injection hu with hu
       subst hl
       subst hu
       right
       right
       simp)⟩

/-- Every division the body of `calculate_prediction_metrics` performs after
the truncation step, in source order (`backend/metrics.py:199-232`): the
elementwise MAPE divisors (each truncated actual), the denominators of the
four means (each a list of length `acts.length`), the bias-percentage
denominator (present only when the guard `acts.mean() != 0` passes), and,
when the interval branch runs, the coverage and width-mean denominators and
the guarded width-percentage denominator. -/
def metrics_core_divisors (acts : List ℚ)
    (intervals_lower intervals_upper : Option (List ℚ)) : List ℚ :=
  acts
    ++ [(acts.length : ℚ), (acts.length : ℚ), (acts.length : ℚ), (acts.length : ℚ)]
    ++ (if mean acts ≠ 0 then [mean acts] else [])
    ++ (match intervals_lower, intervals_upper with
        | some lo, some hi =>
          if lo.isEmpty ∨ hi.isEmpty then []
          else if lo.length = acts.length ∧ hi.length = acts.length then
            [(acts.length : ℚ), (acts.length : ℚ)]
              ++ (if mean acts ≠ 0 then [mean acts] else [])
          else []
        | _, _ => [])

/-- The divisors of the whole call: none on the empty-input early return,
otherwise those of the core computation on the truncated actuals. -/
def metrics_divisors (predictions actuals : List ℚ)
    (intervals_lower intervals_upper : Option (List ℚ)) : List ℚ :=
  if predictions.isEmpty ∨ actuals.isEmpty then []
  else
    metrics_core_divisors (actuals.take (min predictions.length actuals.length))
      intervals_lower intervals_upper

theorem mem_metrics_core_divisors (acts : List ℚ) (lo hi : Option (List ℚ)) :
    ∀ x ∈ metrics_core_divisors acts lo hi,
      x ∈ acts ∨ x = (acts.length : ℚ) ∨ (x = mean acts ∧ mean acts ≠ 0) := by
  intro x hx
  unfold metrics_core_divisors at hx
  simp only [List.mem_append] at hx
  rcases hx with ((hx | hx) | hx) | hx
  · exact Or.inl hx
  · simp only [List.mem_cons, List.not_mem_nil, or_false, or_self] at hx
    exact Or.inr (Or.inl hx)
  · by_cases hm : mean acts ≠ 0
    · rw [if_pos hm] at hx
      simp only [List.mem_singleton] at hx
      exact Or.inr (Or.inr ⟨hx, hm⟩)
    · rw [if_neg hm] at hx
      simp at hx
  · rcases lo with _ | l
    · rcases hi with _ | u <;> simp at hx
    · rcases hi with _ | u
      · simp at hx
      · have hx2 : x ∈ (if l.isEmpty ∨ u.isEmpty then ([] : List ℚ)
            else if l.length = acts.length ∧ u.length = acts.length then
              [(acts.length : ℚ), (acts.length : ℚ)]
                ++ (if mean acts ≠ 0 then [mean acts] else [])
            else []) := hx
        by_cases h1 : l.isEmpty ∨ u.isEmpty
        · rw [if_pos h1] at hx2
          simp at hx2
        · rw [if_neg h1] at hx2
          by_cases h2 : l.length = acts.length ∧ u.length = acts.length
          · rw [if_pos h2] at hx2
            by_cases hm : mean acts ≠ 0
            · rw [if_pos hm] at hx2
              simp only [List.mem_append, List.mem_cons, List.mem_singleton,
                List.not_mem_nil, or_false, or_self] at hx2
              rcases hx2 with h | h
              · exact Or.inr (Or.inl h)
              · exact Or.inr (Or.inr ⟨h, hm⟩)
            · rw [if_neg hm] at hx2
              simp only [List.append_nil, List.mem_cons, List.not_mem_nil,
                or_false, or_self] at hx2
              exact Or.inr (Or.inl hx2)
          · rw [if_neg h2] at hx2
            simp at hx2

/-- Claim C10: under the precondition that every (truncated) actual value is
nonzero, no division by zero occurs anywhere in the computation — every
divisor the code uses is nonzero, the guarded percentage denominators being
excluded by their own `mean != 0` guards — and the precondition is
necessary: with a zero actual among the truncated actuals, a zero divisor
occurs in the elementwise MAPE term. -/
theorem metrics_division_safety (p a : List ℚ) (lo hi : Option (List ℚ)) :
    ((∀ x ∈ a.take (min p.length a.length), x ≠ 0) →
        (0 : ℚ) ∉ metrics_divisors p a lo hi)
    ∧ (¬ p.isEmpty → ¬ a.isEmpty →
        (∃ x ∈ a.take (min p.length a.length), x = 0) →
        (0 : ℚ) ∈ metrics_divisors p a lo hi) := by
  constructor
  · intro hnz hmem
    unfold metrics_divisors at hmem
    by_cases hemp : p.isEmpty ∨ a.isEmpty
    · rw [if_pos hemp] at hmem
      simp at hmem
    · rw [if_neg hemp] at hmem
      rcases mem_metrics_core_divisors _ lo hi 0 hmem with h | h | h
      · exact hnz 0 h rfl
      · have hlen : (a.take (min p.length a.length)).length = 0 := by
          exact_mod_cast h.symm
        rw [List.length_take] at hlen
        have hz : p.length = 0 ∨ a.length = 0 := by
          rcases Nat.min_eq_zero_iff.mp hlen with h1 | h1
          · exact Nat.min_eq_zero_iff.mp h1
          · exact Or.inr h1
        rcases hz with h1 | h1
        · exact hemp (Or.inl (by simp [List.length_eq_zero.mp h1]))
        · exact hemp (Or.inr (by simp [List.length_eq_zero.mp h1]))
      · exact h.2 h.1.symm
  · intro hp ha hex
    obtain ⟨x, hxmem, hx0⟩ := hex
    have hemp : ¬ (p.isEmpty ∨ a.isEmpty) := fun h => h.elim hp ha
    unfold metrics_divisors
    rw [if_neg hemp]
    unfold metrics_core_divisors
    subst hx0
    exact List.mem_append_left _ (List.mem_append_left _ (List.mem_append_left _ hxmem))

/-- Claim C10 (witness): the division-safety at the worked-example inputs
(all actuals nonzero) and its necessity at a zero actual. -/
theorem metrics_division_safety_witness :
    ((0 : ℚ) ∉ metrics_divisors [100, 100] [110, 90] none none)
    ∧ (0 : ℚ) ∈ metrics_divisors [1] [0] none none :=
  ⟨(metrics_division_safety [100, 100] [110, 90] none none).1
     (by norm_num [List.take]),
   (metrics_division_safety [1] [0] none none).2 (by simp) (by simp)
     ⟨0, by norm_num [List.take], rfl⟩⟩

/-- Whitespace test for one character, as Python `str.strip`/`str.isspace`
see it for the characters that occur in these logs. -/
def isWS (c : Char) : Bool := c = ' ' || c = '\t' || c = '\r' || c = '\n'

/-- `str.split(sep)` on a character sequence: splits at every separator,
keeping empty pieces (structural recursion, so that concrete inputs
evaluate). -/
def splitOnChar (sep : Char) : List Char → List (List Char)
  | [] => [[]]
  | c :: rest =>
    match splitOnChar sep rest with
    | [] => [[]]
    | cur :: parts => if c = sep then [] :: cur :: parts else (c :: cur) :: parts

/-- The underlying `pandas.read_csv` call of `CSVParser.parse_csv`
(`backend/csv_parser.py:22`), modelled with pandas' documented default
semantics: blank lines are skipped, the first remaining line is the
header, a record with more fields than the header raises `ParserError`
(`on_bad_lines` defaults to raising), a record with fewer fields is kept
(missing fields become NaN), and input with no non-blank lines raises
`EmptyDataError`.  A raised error is `Except.error`. -/
def read_csv_records (text : List Char) : Except Unit (List (List (List Char))) :=
  match (splitOnChar '\n' text).filter (fun l => !(l.all isWS)) with
  | [] => Except.error ()
  | header :: rest =>
    if rest.all
        (fun line => (splitOnChar ',' line).length ≤ (splitOnChar ',' header).length) then
      Except.ok (rest.map (fun line => splitOnChar ',' line))
    else Except.error ()

/-- `CSVParser.parse_csv` (`backend/csv_parser.py:14-33`): empty or
all-whitespace input (`not csv_content or not csv_content.strip()`)
returns an empty frame before any parsing; otherwise the whole `read_csv`
call runs inside `try/except`, and any parse error is logged and replaced
by an empty frame. -/
def parse_csv (csv_content : List Char) : List (List (List Char)) :=
  if csv_content.isEmpty ∨ csv_content.all isWS then []
  else
    match read_csv_records csv_content with
    | Except.ok rows => rows
    | Except.error _ => []

/-- Claim C8 (counterexample): one malformed record does not merely drop
that record — the `try/except` wraps the whole `read_csv` call, so the
tokenizer error on the bad third record `1,2,3` (three fields under a
two-field header) empties the entire result, losing the well-formed record
`1,2` as well. -/
theorem parse_csv_drops_whole_result :
    parse_csv ("a,b\n1,2\n1,2,3".toList) = []
    ∧ ([] : List (List (List Char))) ≠ [[['1'], ['2']]] := by
  constructor
  · rfl
  · intro h
    exact List.noConfusion h

/-- Claim C8 (amended): `parse_csv` is total and never propagates a
failure — empty or all-whitespace input yields the empty row sequence, and
when the underlying CSV read raises a parse error the result is the empty
row sequence with every record dropped (not only the malformed one);
otherwise the decoded records are returned as-is. -/
theorem parse_csv_total (text : List Char) :
    (text.all isWS → parse_csv text = [])
    ∧ (∀ e, read_csv_records text = Except.error e → parse_csv text = [])
    ∧ (¬ text.all isWS = true → ∀ rows, read_csv_records text = Except.ok rows →
        parse_csv text = rows) := by
  refine ⟨?_, ?_, ?_⟩
  · intro h
    unfold parse_csv
    rw [if_pos (Or.inr h)]
  · intro e he
    unfold parse_csv
    by_cases h : text.isEmpty ∨ text.all isWS
    · rw [if_pos h]
    · rw [if_neg h, he]
  · intro ht rows hr
    have h : ¬ (text.isEmpty ∨ text.all isWS) := by
      rintro (h | h)
      · exact ht (by simp [List.isEmpty_iff.mp h])
      · exact ht h
    unfold parse_csv
    rw [if_neg h, hr]

/-- Claim C8 (witness): totality at concrete inputs — whitespace input and
a well-formed two-record input. -/
theorem parse_csv_total_witness :
    parse_csv [' '] = []
    ∧ parse_csv ("a,b\n1,2".toList) = [[['1'], ['2']]] :=
  ⟨(parse_csv_total [' ']).1 (by decide),
   (parse_csv_total ("a,b\n1,2".toList)).2.2 (by decide) [[['1'], ['2']]] rfl⟩

/-- A row of the predictions table as the query layer sees it: the
`observed_at` key and one per-asset numeric column, `none` standing for a
NaN (absent) value.  One column suffices to express the collapse
behaviour. -/
structure PRow where
  ts : Nat
  pred : Option ℚ
deriving DecidableEq, Repr

/-- `df.groupby(timestamp_col).first().reset_index()` as used at
`backend/main.py:278` (get_predictions) and `backend/main.py:913`
(get_asset_data), with pandas' documented semantics of `GroupBy.first`:
group keys in ascending order, and for each column the first **non-null**
value within the group in source order (nulls are skipped), null only if
the column is null throughout the group. -/
def groupby_first (rows : List PRow) : List PRow :=
  (List.insertionSort (fun a b => a ≤ b) ((rows.map PRow.ts).dedup)).map
    (fun k => ⟨k, (rows.filter (fun r => r.ts == k)).findSome? PRow.pred⟩)

/-- The collapse rule the specification prescribes: the first-seen row of
the table carrying the given timestamp, in source order. -/
def first_seen_row (rows : List PRow) (k : Nat) : Option PRow :=
  rows.find? (fun r => r.ts == k)

/-- Claim C9 (code divergence, at the failing input): for the table with
two rows at timestamp 1 — first row with a null prediction, second row
with prediction 5 — the collapse returns the field-wise combination
`⟨1, some 5⟩`, while the first-seen row is `⟨1, none⟩`: `GroupBy.first`
skips nulls per column instead of taking the first row, contradicting the
code's own comment "take the first row for each timestamp". -/
theorem groupby_first_not_first_seen :
    groupby_first [⟨1, none⟩, ⟨1, some 5⟩] = [⟨1, some 5⟩]
    ∧ first_seen_row [⟨1, none⟩, ⟨1, some 5⟩] 1 = some ⟨1, none⟩
    ∧ (⟨1, some 5⟩ : PRow) ≠ ⟨1, none⟩ := by
  refine ⟨rfl, rfl, ?_⟩
  intro h
  have h2 := congrArg PRow.pred h
  exact Option.noConfusion h2
